import Mathlib

/-!
Shallow embedding of the `query_map` Rust crate (calavera/query-map-rs).

The crate's `QueryMap<V>` wraps an `Arc<HashMap<String, Vec<V>>>`
(src/lib.rs line 87).  We model the hash map as an association list
`List (String × List V)`; the hash-map representation invariant (keys are
pairwise distinct) is stated explicitly as `uniqKeys` where a theorem
needs it.  Hash-map operations `get` and `insert` are modelled by
`lookupAssoc` and `insertAssoc` below; `keys()` is modelled by the list
of first components.
-/

set_option maxHeartbeats 1000000

namespace QueryMapRs

/-- Model of `HashMap::get`: find the value of the first (and, under the
hash-map invariant `uniqKeys`, only) entry with the given key. -/
def lookupAssoc {β : Type} : List (String × β) → String → Option β
  | [], _ => none
  | p :: rest, k => if p.1 = k then some p.2 else lookupAssoc rest k

/-- Model of `HashMap::contains_key`. -/
def containsKey {β : Type} (st : List (String × β)) (k : String) : Bool :=
  st.any fun p => p.1 = k

/-- Model of `HashMap::insert`: replace the value of an existing entry with
the given key (keeping its position), or add a new entry. -/
def insertAssoc {β : Type} (st : List (String × β)) (k : String) (v : β) :
    List (String × β) :=
  if containsKey st k then
    st.map fun p => if p.1 = k then (k, v) else p
  else
    st ++ [(k, v)]

/-- The underlying store of a `QueryMap`: `HashMap<String, Vec<V>>`. -/
abbrev Store (V : Type) := List (String × List V)

/-- Model of `QueryMap<V>` (src/lib.rs line 87): a wrapper around the
shared `HashMap<String, Vec<V>>`.  The `Arc` only affects ownership, not
the value, so it is not represented. -/
structure QueryMap (V : Type) where
  data : Store V

/-- Model of `QueryMap::first` (src/lib.rs lines 91-93):
`self.0.get(key).and_then(|values| values.first())`. -/
def QueryMap.first {V : Type} (m : QueryMap V) (key : String) : Option V :=
  (lookupAssoc m.data key).bind List.head?

/-- Model of `QueryMap::all` (src/lib.rs lines 96-100):
`self.0.get(key).map(|values| values.iter().collect())`.  Collecting the
references reproduces the stored list, so the model returns it directly. -/
def QueryMap.all {V : Type} (m : QueryMap V) (key : String) : Option (List V) :=
  lookupAssoc m.data key

/-- Model of `QueryMap::is_empty` (src/lib.rs lines 103-105):
`self.0.is_empty()`. -/
def QueryMap.is_empty {V : Type} (m : QueryMap V) : Bool :=
  m.data.isEmpty

/-- Model of `QueryMap::default()` (the `Default` derive on src/lib.rs
line 85): a wrapper around an empty hash map. -/
def QueryMap.mkDefault {V : Type} : QueryMap V := ⟨[]⟩

/-- The hash-map representation invariant: keys are pairwise distinct.
Every `QueryMap` reachable in the Rust program satisfies it, because the
store is always built as a `HashMap`. -/
def uniqKeys {V : Type} (m : QueryMap V) : Prop :=
  (m.data.map Prod.fst).Nodup

/-- The store invariant stated in the spec's data model: every present
key's value list is non-empty.  `From<HashMap>` (src/lib.rs lines 124-128)
performs no validation, so maps violating it are constructible. -/
def wfValues {V : Type} (m : QueryMap V) : Prop :=
  ∀ p ∈ m.data, p.2 ≠ []

theorem lookupAssoc_mem {β : Type} {st : List (String × β)} {k : String} {v : β}
    (h : lookupAssoc st k = some v) : (k, v) ∈ st := by
  induction st with
  | nil => simp [lookupAssoc] at h
  | cons p rest ih =>
    simp only [lookupAssoc] at h
    split at h
    · rename_i heq
      cases h
      subst heq
      exact List.mem_cons_self _ _
    · right
      exact ih h

theorem lookupAssoc_isSome_of_mem_keys {β : Type} {st : List (String × β)}
    {k : String} (h : k ∈ st.map Prod.fst) : (lookupAssoc st k).isSome := by
  induction st with
  | nil => simp at h
  | cons p rest ih =>
    simp only [List.map_cons, List.mem_cons] at h
    simp only [lookupAssoc]
    split
    · rfl
    · rename_i hne
      apply ih
      rcases h with h | h
      · exact absurd h.symm hne
      · exact h

/-- C8: `is_empty()` is true iff the store contains zero keys, and a
default-constructed `QueryMap` is empty. -/
theorem c8_is_empty_iff_no_keys :
    (∀ {V : Type} (m : QueryMap V), m.is_empty = true ↔ m.data = []) ∧
    (∀ {V : Type}, (QueryMap.mkDefault : QueryMap V).is_empty = true) := by
  constructor
  · intro V m
    simp [QueryMap.is_empty, List.isEmpty_iff]
  · intro V
    rfl

/-- C2 fails as stated: the map `{"k" ↦ []}`, constructible through
`From<HashMap<String, Vec<V>>>` (which performs no validation), has
`all("k") = Some([])` but `first("k") = None`, so the claimed equivalence
between the two `None` results is false. -/
theorem c2_counterexample :
    ¬(((QueryMap.mk [("k", ([] : List String))]).all "k" = none) ↔
      ((QueryMap.mk [("k", ([] : List String))]).first "k" = none)) := by
  decide

/-- C2 (amended): for every query map whose present keys all carry a
non-empty value list, `all(k)` is `None` iff `first(k)` is `None`, and
when `all(k)` returns a list its first element is exactly `first(k)`. -/
theorem c2_first_all_agree {V : Type} (m : QueryMap V) (k : String)
    (hwf : wfValues m) :
    ((m.all k = none ↔ m.first k = none) ∧
     ∀ (l : List V) (x : V), m.all k = some (x :: l) → m.first k = some x) := by
  constructor
  · unfold QueryMap.all QueryMap.first
    cases hl : lookupAssoc m.data k with
    | none => simp
    | some vs =>
      have hmem : (k, vs) ∈ m.data := lookupAssoc_mem hl
      have hne : vs ≠ [] := hwf _ hmem
      cases vs with
      | nil => exact absurd rfl hne
      | cons x xs => simp
  · intro l x h
    unfold QueryMap.all at h
    unfold QueryMap.first
    rw [h]
    rfl

/-- Witness for `c2_first_all_agree` at the concrete map `{"a" ↦ ["x"]}`. -/
theorem c2_first_all_agree_witness :
    (((QueryMap.mk [("a", ["x"])]).all "a" = none ↔
      (QueryMap.mk [("a", ["x"])]).first "a" = none) ∧
     ∀ (l : List String) (x : String),
       (QueryMap.mk [("a", ["x"])]).all "a" = some (x :: l) →
       (QueryMap.mk [("a", ["x"])]).first "a" = some x) :=
  c2_first_all_agree (QueryMap.mk [("a", ["x"])]) "a" (by
    intro p hp
    simp only [List.mem_singleton] at hp
    subst hp
    simp)

theorem get?_some_lt {α : Type} :
    ∀ (l : List α) (n : Nat) (a : α), l.get? n = some a → n < l.length := by
  intro l
  induction l with
  | nil => intro n a h; simp at h
  | cons x xs ih =>
    intro n a h
    cases n with
    | zero => simp
    | succ n =>
      simp only [List.get?] at h
      have := ih n a h
      simp
      omega

theorem drop_eq_cons_of_get? {α : Type} :
    ∀ (l : List α) (n : Nat) (a : α),
      l.get? n = some a → l.drop n = a :: l.drop (n + 1) := by
  intro l
  induction l with
  | nil => intro n a h; simp at h
  | cons x xs ih =>
    intro n a h
    cases n with
    | zero =>
      simp only [List.get?] at h
      cases h
      simp
    | succ n =>
      simp only [List.get?] at h
      simpa using ih n a h

/-- Model of the state of `QueryMapIter` (src/lib.rs lines 131-136): the
map's store (the `data` reference), the remaining keys of the `Keys`
iterator, the current key paired with its value list, and the index of
the next value to emit. -/
structure QueryMapIter (V : Type) where
  data : Store V
  keys : List String
  current : Option (String × List V)
  next_idx : Nat

/-- Result of one call to `QueryMapIter::next`: the end of iteration, the
out-of-bounds panic of `values[self.next_idx]`, or a yielded pair with
the successor state. -/
inductive StepResult (V : Type) where
  | done : StepResult V
  | oob : StepResult V
  | yield : String → V → QueryMapIter V → StepResult V

/-- The first half of `QueryMapIter::next` (src/lib.rs lines 143-148):
when no current key is active, pull the next key from the key iterator
and load its values by `self.data.all(k).unwrap_or_default()`. -/
def QueryMapIter.pull {V : Type} (s : QueryMapIter V) : QueryMapIter V :=
  match s.current with
  | some _ => s
  | none =>
    match s.keys with
    | [] => s
    | k :: ks =>
      { s with keys := ks, current := some (k, (lookupAssoc s.data k).getD []) }

/-- Model of `QueryMapIter::next` (src/lib.rs lines 142-171).  After the
pull, `values[self.next_idx]` is read (out of bounds is the `oob`
result); then either the index advances (`self.next_idx += 1`) or the
cursor is cleared and the index reset (`reset` branch). -/
def QueryMapIter.next {V : Type} (s : QueryMapIter V) : StepResult V :=
  match (s.pull).current with
  | none => .done
  | some kv =>
    match kv.2.get? (s.pull).next_idx with
    | none => .oob
    | some value =>
      if (s.pull).next_idx + 1 < kv.2.length then
        .yield kv.1 value { s.pull with next_idx := (s.pull).next_idx + 1 }
      else
        .yield kv.1 value { s.pull with current := none, next_idx := 0 }

/-- Weight of the keys still to be visited: each key contributes its
value-list length plus one. -/
def keysWeight {V : Type} (st : Store V) : List String → Nat
  | [] => 0
  | k :: ks => ((lookupAssoc st k).getD []).length + 1 + keysWeight st ks

/-- Termination measure for the iterator: values left in the current
cursor plus the weight of the remaining keys. -/
def iterMeasure {V : Type} (s : QueryMapIter V) : Nat :=
  (match s.current with
   | some kv => kv.2.length - s.next_idx
   | none => 0) + keysWeight s.data s.keys

theorem next_yield_measure {V : Type} (s : QueryMapIter V) (k : String) (v : V)
    (s' : QueryMapIter V) (h : s.next = .yield k v s') :
    iterMeasure s' < iterMeasure s := by
  obtain ⟨data, keys, current, idx⟩ := s
  cases current with
  | some kv =>
    obtain ⟨k0, vs⟩ := kv
    simp only [QueryMapIter.next, QueryMapIter.pull] at h
    cases hg : vs.get? idx with
    | none =>
      simp only [hg] at h
      exact StepResult.noConfusion h
    | some value =>
      simp only [hg] at h
      have hidx : idx < vs.length := get?_some_lt vs idx value hg
      by_cases hc : idx + 1 < vs.length
      · rw [if_pos hc] at h
        cases h
        simp only [iterMeasure, keysWeight]
        omega
      · rw [if_neg hc] at h
        cases h
        simp only [iterMeasure, keysWeight]
        omega
  | none =>
    cases keys with
    | nil => simp [QueryMapIter.next, QueryMapIter.pull] at h
    | cons k0 ks =>
      simp only [QueryMapIter.next, QueryMapIter.pull] at h
      cases hg : ((lookupAssoc data k0).getD []).get? idx with
      | none =>
        simp only [hg] at h
        exact StepResult.noConfusion h
      | some value =>
        simp only [hg] at h
        have hidx : idx < ((lookupAssoc data k0).getD []).length :=
          get?_some_lt _ idx value hg
        by_cases hc : idx + 1 < ((lookupAssoc data k0).getD []).length
        · rw [if_pos hc] at h
          cases h
          simp only [iterMeasure, keysWeight]
          omega
        · rw [if_neg hc] at h
          cases h
          simp only [iterMeasure, keysWeight]
          omega

/-- Driver that runs the iterator to completion, collecting the yielded
pairs in order.  The result is `none` exactly when a `next` call hits the
out-of-bounds panic.  The fuel argument only bounds the recursion depth:
`runIterF_congr` shows that any fuel above `iterMeasure` gives the same
result, and `runIter` always passes enough. -/
def runIterF {V : Type} : Nat → QueryMapIter V → Option (List (String × V))
  | 0, _ => none
  | n + 1, s =>
    match s.next with
    | .done => some []
    | .oob => none
    | .yield k v s' => (runIterF n s').map fun tail => (k, v) :: tail

/-- Complete run of the iterator from a given state. -/
def runIter {V : Type} (s : QueryMapIter V) : Option (List (String × V)) :=
  runIterF (iterMeasure s + 1) s

theorem runIterF_congr {V : Type} :
    ∀ (n m : Nat) (s : QueryMapIter V), iterMeasure s < n → iterMeasure s < m →
      runIterF n s = runIterF m s := by
  intro n
  induction n with
  | zero => intro m s h _; omega
  | succ n ih =>
    intro m s hn hm
    cases m with
    | zero => omega
    | succ m =>
      simp only [runIterF]
      cases hs : s.next with
      | done => rfl
      | oob => rfl
      | yield k v s' =>
        have hlt := next_yield_measure s k v s' hs
        exact congrArg (Option.map fun tail => (k, v) :: tail)
          (ih m s' (by omega) (by omega))

theorem runIter_done {V : Type} {s : QueryMapIter V} (h : s.next = .done) :
    runIter s = some [] := by
  unfold runIter
  simp only [runIterF, h]

theorem runIter_oob {V : Type} {s : QueryMapIter V} (h : s.next = .oob) :
    runIter s = none := by
  unfold runIter
  simp only [runIterF, h]

theorem runIter_yield {V : Type} {s s' : QueryMapIter V} {k : String} {v : V}
    (h : s.next = .yield k v s') :
    runIter s = (runIter s').map fun tail => (k, v) :: tail := by
  have h1 : runIterF (iterMeasure s + 1) s =
      (runIterF (iterMeasure s) s').map fun tail => (k, v) :: tail := by
    simp only [runIterF, h]
  have h2 : runIterF (iterMeasure s) s' = runIterF (iterMeasure s' + 1) s' :=
    runIterF_congr _ _ _ (next_yield_measure s k v s' h) (Nat.lt_succ_self _)
  unfold runIter
  rw [h1, h2]

theorem pull_pull {V : Type} (s : QueryMapIter V) : s.pull.pull = s.pull := by
  obtain ⟨data, keys, current, idx⟩ := s
  cases current with
  | some kv => rfl
  | none =>
    cases keys with
    | nil => rfl
    | cons k ks => rfl

theorem next_pull {V : Type} (s : QueryMapIter V) : s.pull.next = s.next := by
  simp only [QueryMapIter.next, pull_pull]

theorem runIter_pull {V : Type} (s : QueryMapIter V) :
    runIter s.pull = runIter s := by
  cases hs : s.next with
  | done => rw [runIter_done hs, runIter_done (by rw [next_pull]; exact hs)]
  | oob => rw [runIter_oob hs, runIter_oob (by rw [next_pull]; exact hs)]
  | yield k v s' =>
    rw [runIter_yield hs, runIter_yield (show s.pull.next = _ by rw [next_pull]; exact hs)]

/-- Model of `QueryMap::iter` (src/lib.rs lines 108-115): a fresh iterator
over the map, keys from `self.0.keys()`, no current key, index zero. -/
def QueryMap.iter {V : Type} (m : QueryMap V) : QueryMapIter V :=
  ⟨m.data, m.data.map Prod.fst, none, 0⟩

/-- The store flattened to (key, value) pairs: for each entry, one pair
per value, in stored order. -/
def flattenStore {V : Type} : Store V → List (String × V)
  | [] => []
  | p :: rest => (p.2.map fun v => (p.1, v)) ++ flattenStore rest

/-- Sum over all entries of the entry's value-list length. -/
def sumLens {V : Type} : Store V → Nat
  | [] => 0
  | p :: rest => p.2.length + sumLens rest

/-- Pairs emitted for a given list of keys, each key contributing the
value list found for it in the store. -/
def emitKeys {V : Type} (st : Store V) : List String → List (String × V)
  | [] => []
  | k :: ks => (((lookupAssoc st k).getD []).map fun v => (k, v)) ++ emitKeys st ks

theorem flattenStore_length {V : Type} :
    ∀ st : Store V, (flattenStore st).length = sumLens st := by
  intro st
  induction st with
  | nil => rfl
  | cons p rest ih => simp [flattenStore, sumLens, ih]

theorem runIter_from_current {V : Type} (st : Store V) (ks : List String)
    (k : String) (vs : List V) :
    ∀ (d idx : Nat), vs.length - idx = d + 1 → idx < vs.length →
      runIter (QueryMapIter.mk st ks (some (k, vs)) idx) =
        (runIter (QueryMapIter.mk st ks none 0)).map
          fun t => ((vs.drop idx).map fun v => (k, v)) ++ t := by
  intro d
  induction d with
  | zero =>
    intro idx hd hidx
    have hg : vs.get? idx = some (vs.get ⟨idx, hidx⟩) := List.get?_eq_get hidx
    have hnext : (QueryMapIter.mk st ks (some (k, vs)) idx).next =
        .yield k (vs.get ⟨idx, hidx⟩) (QueryMapIter.mk st ks none 0) := by
      simp only [QueryMapIter.next, QueryMapIter.pull, hg]
      rw [if_neg (by omega)]
    rw [runIter_yield hnext]
    cases hb : runIter (QueryMapIter.mk st ks none 0) with
    | none => rfl
    | some t =>
      simp only [Option.map_some', Option.some.injEq]
      rw [drop_eq_cons_of_get? vs idx _ hg]
      have hend : vs.drop (idx + 1) = [] := by
        have : idx + 1 = vs.length := by omega
        rw [this]
        exact List.drop_length vs
      rw [hend]
      rfl
  | succ d ihd =>
    intro idx hd hidx
    have hlt : idx + 1 < vs.length := by omega
    have hg : vs.get? idx = some (vs.get ⟨idx, hidx⟩) := List.get?_eq_get hidx
    have hnext : (QueryMapIter.mk st ks (some (k, vs)) idx).next =
        .yield k (vs.get ⟨idx, hidx⟩)
          (QueryMapIter.mk st ks (some (k, vs)) (idx + 1)) := by
      simp only [QueryMapIter.next, QueryMapIter.pull, hg]
      rw [if_pos hlt]
    rw [runIter_yield hnext, ihd (idx + 1) (by omega) hlt, Option.map_map]
    cases hb : runIter (QueryMapIter.mk st ks none 0) with
    | none => rfl
    | some t =>
      simp only [Option.map_some', Function.comp_apply, Option.some.injEq]
      rw [drop_eq_cons_of_get? vs idx _ hg]
      rfl

theorem runIter_from_keys {V : Type} (st : Store V) :
    ∀ ks : List String,
      (∀ k ∈ ks, ∃ vs, lookupAssoc st k = some vs ∧ vs ≠ []) →
      runIter (QueryMapIter.mk st ks none 0) = some (emitKeys st ks) := by
  intro ks
  induction ks with
  | nil =>
    intro _
    rw [runIter_done (show (QueryMapIter.mk st [] none 0).next = .done from rfl)]
    rfl
  | cons k ks ih =>
    intro hks
    obtain ⟨vs, hvs, hne⟩ := hks k (List.mem_cons_self k ks)
    have hlen : 0 < ((lookupAssoc st k).getD []).length := by
      rw [hvs]
      exact List.length_pos.mpr hne
    have hpull : (QueryMapIter.mk st (k :: ks) none 0).pull =
        QueryMapIter.mk st ks (some (k, (lookupAssoc st k).getD [])) 0 := rfl
    have h1 : runIter (QueryMapIter.mk st (k :: ks) none 0) =
        runIter (QueryMapIter.mk st ks (some (k, (lookupAssoc st k).getD [])) 0) := by
      rw [← runIter_pull (QueryMapIter.mk st (k :: ks) none 0), hpull]
    rw [h1,
      runIter_from_current st ks k ((lookupAssoc st k).getD [])
        (((lookupAssoc st k).getD []).length - 1) 0 (by omega) hlen,
      ih fun k' hk' => hks k' (List.mem_cons_of_mem _ hk')]
    simp [emitKeys]

theorem emitKeys_congr {V : Type} :
    ∀ (ks : List String) (st st' : Store V),
      (∀ k ∈ ks, lookupAssoc st k = lookupAssoc st' k) →
      emitKeys st ks = emitKeys st' ks := by
  intro ks
  induction ks with
  | nil => intro st st' _; rfl
  | cons k ks ih =>
    intro st st' h
    simp only [emitKeys]
    rw [h k (List.mem_cons_self k ks),
      ih st st' fun k' hk' => h k' (List.mem_cons_of_mem _ hk')]

theorem emitKeys_eq_flatten {V : Type} :
    ∀ st : Store V, (st.map Prod.fst).Nodup →
      emitKeys st (st.map Prod.fst) = flattenStore st := by
  intro st
  induction st with
  | nil => intro _; rfl
  | cons p rest ih =>
    intro hnd
    rw [List.map_cons]
    have hnotin : p.1 ∉ rest.map Prod.fst := (List.nodup_cons.mp hnd).1
    have hnd' : (rest.map Prod.fst).Nodup := (List.nodup_cons.mp hnd).2
    simp only [emitKeys]
    have hl : lookupAssoc (p :: rest) p.1 = some p.2 := by
      simp [lookupAssoc]
    have hcongr : emitKeys (p :: rest) (rest.map Prod.fst) =
        emitKeys rest (rest.map Prod.fst) := by
      apply emitKeys_congr
      intro k hk
      have hne : p.1 ≠ k := fun he => hnotin (he ▸ hk)
      simp [lookupAssoc, hne]
    rw [hl, hcongr, ih hnd']
    rfl

theorem store_keys_lookup {V : Type} (m : QueryMap V) (hwf : wfValues m) :
    ∀ k ∈ m.data.map Prod.fst, ∃ vs, lookupAssoc m.data k = some vs ∧ vs ≠ [] := by
  intro k hk
  cases hl : lookupAssoc m.data k with
  | none =>
    have := lookupAssoc_isSome_of_mem_keys hk
    rw [hl] at this
    simp at this
  | some vs =>
    exact ⟨vs, rfl, hwf _ (lookupAssoc_mem hl)⟩

theorem iter_runs_to_flatten {V : Type} (m : QueryMap V) (hwf : wfValues m)
    (hu : uniqKeys m) :
    runIter (QueryMap.iter m) = some (flattenStore m.data) := by
  unfold QueryMap.iter
  rw [runIter_from_keys m.data (m.data.map Prod.fst) (store_keys_lookup m hwf)]
  rw [emitKeys_eq_flatten m.data hu]

/-- C3 fails as stated: on the map `{"b" ↦ [], "a" ↦ ["x"]}` (constructible
through `From<HashMap>`), the sum of the value-list lengths is 1, but the
fresh iterator panics on the out-of-bounds index `values[0]` for key
`"b"` before emitting any pair, so no finite sequence of 1 pair is
emitted. -/
theorem c3_counterexample :
    runIter (QueryMap.iter (QueryMap.mk [("b", ([] : List String)), ("a", ["x"])])) =
      none ∧
    sumLens [("b", ([] : List String)), ("a", ["x"])] = 1 := by
  constructor
  · rfl
  · rfl

/-- C3 (amended): for every query map whose present keys all carry a
non-empty value list, a fresh flattening iterator runs to completion and
emits exactly the store flattened entry by entry — pairs for one key are
contiguous and in stored order, and the total count is the sum of the
value-list lengths. -/
theorem c3_iter_flattens {V : Type} (m : QueryMap V) (hwf : wfValues m)
    (hu : uniqKeys m) :
    runIter (QueryMap.iter m) = some (flattenStore m.data) ∧
    (flattenStore m.data).length = sumLens m.data := by
  exact ⟨iter_runs_to_flatten m hwf hu, flattenStore_length m.data⟩

/-- Witness for `c3_iter_flattens` at a concrete two-key map. -/
theorem c3_iter_flattens_witness :
    runIter (QueryMap.iter (QueryMap.mk [("a", ["x", "y"]), ("b", ["z"])])) =
      some (flattenStore [("a", ["x", "y"]), ("b", ["z"])]) ∧
    (flattenStore [("a", ["x", "y"]), ("b", ["z"])]).length =
      sumLens [("a", ["x", "y"]), ("b", ["z"])] :=
  c3_iter_flattens (QueryMap.mk [("a", ["x", "y"]), ("b", ["z"])])
    (by unfold wfValues; decide) (by unfold uniqKeys; decide)

/-- C9: for every query map in which each present key's value list is
non-empty, the iterator runs to completion without ever indexing out of
bounds; and the precondition is needed — a map built with an empty value
list makes the very first `next` call hit the out-of-bounds panic. -/
theorem c9_no_oob :
    (∀ {V : Type} (m : QueryMap V), wfValues m →
      (runIter (QueryMap.iter m)).isSome = true) ∧
    (QueryMap.iter (QueryMap.mk [("k", ([] : List String))])).next =
      StepResult.oob := by
  constructor
  · intro V m hwf
    unfold QueryMap.iter
    rw [runIter_from_keys m.data (m.data.map Prod.fst) (store_keys_lookup m hwf)]
    rfl
  · rfl

/-- Witness for `c9_no_oob` at the concrete map `{"a" ↦ ["x"]}`. -/
theorem c9_no_oob_witness :
    (runIter (QueryMap.iter (QueryMap.mk [("a", ["x"])]))).isSome = true :=
  c9_no_oob.1 (QueryMap.mk [("a", ["x"])]) (by unfold wfValues; decide)

/-- Model of Rust's `str::split(',')` (a split on a character pattern) at
the character level: the maximal runs between separator occurrences, so
an empty input yields one empty piece and a trailing separator yields a
trailing empty piece. -/
def splitChars (sep : Char) : List Char → List (List Char)
  | [] => [[]]
  | c :: cs =>
    if c = sep then [] :: splitChars sep cs
    else
      match splitChars sep cs with
      | [] => [[c]]
      | h :: t => (c :: h) :: t

/-- Model of Rust's `Vec::join(",")` at the character level: the pieces
interleaved with single separators. -/
def joinChars (sep : Char) : List (List Char) → List Char
  | [] => []
  | [a] => a
  | a :: b :: rest => a ++ sep :: joinChars sep (b :: rest)

theorem splitChars_no_sep (sep : Char) :
    ∀ l : List Char, sep ∉ l → splitChars sep l = [l] := by
  intro l
  induction l with
  | nil => intro _; rfl
  | cons c cs ih =>
    intro h
    have hc : c ≠ sep := fun he => h (he ▸ List.mem_cons_self c cs)
    have hcs : sep ∉ cs := fun hm => h (List.mem_cons_of_mem c hm)
    simp only [splitChars, if_neg hc, ih hcs]

theorem splitChars_append_sep (sep : Char) :
    ∀ (a rest : List Char), sep ∉ a →
      splitChars sep (a ++ sep :: rest) = a :: splitChars sep rest := by
  intro a
  induction a with
  | nil =>
    intro rest _
    simp [splitChars]
  | cons c a' ih =>
    intro rest h
    have hc : c ≠ sep := fun he => h (he ▸ List.mem_cons_self c a')
    have ha' : sep ∉ a' := fun hm => h (List.mem_cons_of_mem c hm)
    simp only [List.cons_append, splitChars, if_neg hc]
    rw [show a'.append (sep :: rest) = a' ++ sep :: rest from rfl, ih rest ha']

theorem splitChars_joinChars (sep : Char) :
    ∀ ls : List (List Char), ls ≠ [] → (∀ a ∈ ls, sep ∉ a) →
      splitChars sep (joinChars sep ls) = ls := by
  intro ls
  induction ls with
  | nil => intro h _; exact absurd rfl h
  | cons a rest ih =>
    intro _ hall
    cases rest with
    | nil =>
      simp only [joinChars]
      exact splitChars_no_sep sep a (hall a (List.mem_cons_self a []))
    | cons b rest' =>
      simp only [joinChars]
      rw [splitChars_append_sep sep a _ (hall a (List.mem_cons_self a _))]
      rw [ih (List.cons_ne_nil b rest')
        fun x hx => hall x (List.mem_cons_of_mem a hx)]

/-- Model of `one.split(',').map(String::from).collect::<Vec<_>>()`
(src/serde.rs line 45 and src/serde/aws_api_gateway_v2.rs line 61). -/
def rsplit (s : String) : List String :=
  (splitChars ',' s.data).map List.asString

/-- Model of `all(k).unwrap().join(",")`'s joining step
(src/serde/aws_api_gateway_v2.rs line 105). -/
def rjoin (l : List String) : String :=
  (joinChars ',' (l.map String.data)).asString

theorem asString_data_eq (s : String) : List.asString s.data = s := rfl

theorem data_asString_eq (l : List Char) : (List.asString l).data = l := rfl

theorem rsplit_no_comma (s : String) (h : ',' ∉ s.data) : rsplit s = [s] := by
  unfold rsplit
  rw [splitChars_no_sep ',' s.data h]
  rfl

theorem rsplit_rjoin (l : List String) (hne : l ≠ [])
    (hcf : ∀ v ∈ l, ',' ∉ v.data) : rsplit (rjoin l) = l := by
  unfold rsplit rjoin
  rw [data_asString_eq]
  rw [splitChars_joinChars ',' (l.map String.data)
    (by simpa using hne)
    (by
      intro a ha
      obtain ⟨v, hv, rfl⟩ := List.mem_map.mp ha
      exact hcf v hv)]
  rw [List.map_map]
  exact (List.map_congr_left fun v _ => asString_data_eq v).trans (List.map_id l)

theorem containsKey_false_iff {β : Type} (st : List (String × β)) (k : String) :
    containsKey st k = false ↔ ∀ p ∈ st, p.1 ≠ k := by
  simp [containsKey]

theorem lookupAssoc_none_of_not_contains {β : Type} {st : List (String × β)}
    {k : String} (h : containsKey st k = false) : lookupAssoc st k = none := by
  induction st with
  | nil => rfl
  | cons p rest ih =>
    have hall := (containsKey_false_iff _ _).mp h
    have hp : p.1 ≠ k := hall p (List.mem_cons_self p rest)
    have hr : containsKey rest k = false := (containsKey_false_iff _ _).mpr
      fun q hq => hall q (List.mem_cons_of_mem p hq)
    simp only [lookupAssoc, if_neg hp]
    exact ih hr

theorem lookupAssoc_append {β : Type} (l1 l2 : List (String × β)) (k : String)
    (h : lookupAssoc l1 k = none) :
    lookupAssoc (l1 ++ l2) k = lookupAssoc l2 k := by
  induction l1 with
  | nil => rfl
  | cons p rest ih =>
    simp only [lookupAssoc] at h
    split at h
    · exact absurd h (by simp)
    · rename_i hp
      simp only [List.cons_append, lookupAssoc, if_neg hp]
      exact ih h

theorem lookupAssoc_insert_self {β : Type} (st : List (String × β))
    (k : String) (v : β) : lookupAssoc (insertAssoc st k v) k = some v := by
  unfold insertAssoc
  by_cases hc : containsKey st k = true
  · rw [if_pos hc]
    induction st with
    | nil => simp [containsKey] at hc
    | cons p rest ih =>
      by_cases hp : p.1 = k
      · simp [lookupAssoc, hp]
      · have hr : containsKey rest k = true := by
          simpa [containsKey, hp] using hc
        simp only [List.map_cons, lookupAssoc, if_neg hp]
        exact ih hr
  · rw [if_neg hc]
    rw [lookupAssoc_append st [(k, v)] k
      (lookupAssoc_none_of_not_contains (Bool.not_eq_true _ ▸ hc))]
    simp [lookupAssoc]

theorem lookupAssoc_map_replace_ne {β : Type} {k' : String} {v : β}
    (k : String) (hne : k' ≠ k) :
    ∀ st : List (String × β),
      lookupAssoc (st.map fun p => if p.1 = k' then (k', v) else p) k =
        lookupAssoc st k := by
  intro st
  induction st with
  | nil => rfl
  | cons p rest ih =>
    by_cases hp : p.1 = k'
    · simp only [List.map_cons, if_pos hp, lookupAssoc, if_neg hne, if_neg (hp ▸ hne : ¬p.1 = k)]
      exact ih
    · simp only [List.map_cons, if_neg hp, lookupAssoc]
      split
      · rfl
      · exact ih

theorem lookupAssoc_append_single_ne {β : Type} (k k' : String) (v : β)
    (hne : k' ≠ k) :
    ∀ st : List (String × β),
      lookupAssoc (st ++ [(k', v)]) k = lookupAssoc st k := by
  intro st
  induction st with
  | nil => simp [lookupAssoc, hne]
  | cons p rest ih =>
    simp only [List.cons_append, lookupAssoc]
    split
    · rfl
    · exact ih

theorem lookupAssoc_insert_ne {β : Type} (st : List (String × β))
    (k k' : String) (v : β) (hne : k' ≠ k) :
    lookupAssoc (insertAssoc st k' v) k = lookupAssoc st k := by
  unfold insertAssoc
  by_cases hc : containsKey st k' = true
  · rw [if_pos hc]
    exact lookupAssoc_map_replace_ne k hne st
  · rw [if_neg hc]
    exact lookupAssoc_append_single_ne k k' v hne st

theorem insertAssoc_insert_same {β : Type} (st : List (String × β))
    (k : String) (v : β) :
    insertAssoc (insertAssoc st k v) k v = insertAssoc st k v := by
  have hkeys : ∀ (l : List (String × β)),
      (l.map fun p => if p.1 = k then (k, v) else p).map Prod.fst = l.map Prod.fst := by
    intro l
    rw [List.map_map]
    apply List.map_congr_left
    intro p _
    by_cases hp : p.1 = k
    · simp [hp]
    · simp [hp]
  unfold insertAssoc
  by_cases hc : containsKey st k = true
  · have hc2 : containsKey (st.map fun p => if p.1 = k then (k, v) else p) k = true := by
      simp only [containsKey, List.any_eq_true] at hc ⊢
      obtain ⟨p, hp, hpe⟩ := hc
      refine ⟨if p.1 = k then (k, v) else p, List.mem_map.mpr ⟨p, hp, rfl⟩, ?_⟩
      simp only [decide_eq_true_eq] at hpe
      simp [hpe]
    rw [if_pos hc, if_pos hc2, List.map_map]
    apply List.map_congr_left
    intro p _
    by_cases hp : p.1 = k
    · simp [Function.comp, hp]
    · simp [Function.comp, hp]
  · have hc2 : containsKey (st ++ [(k, v)]) k = true := by
      simp [containsKey]
    rw [if_neg hc, if_pos hc2, List.map_append]
    have hst : st.map (fun p => if p.1 = k then (k, v) else p) = st := by
      have hall := (containsKey_false_iff st k).mp (Bool.not_eq_true _ ▸ hc)
      have : ∀ p ∈ st, (if p.1 = k then (k, v) else p) = p := by
        intro p hp
        rw [if_neg (hall p hp)]
      exact (List.map_congr_left this).trans (List.map_id st)
    rw [hst]
    simp

/-- Model of the untagged `OneOrMany` enum (src/serde.rs lines 9-14 and
src/serde/aws_api_gateway_v2.rs lines 10-15): a value decoded as either a
single `String` or a `Vec<String>`. -/
inductive OneOrMany where
  | one : String → OneOrMany
  | many : List String → OneOrMany

/-- Shape of one value as a self-describing structured decoding source
(the serde data model) offers it: a string, a list, a nested map, an
explicit null, a unit, or any other shape (numbers, booleans, ...). -/
inductive SValue where
  | str : String → SValue
  | list : List SValue → SValue
  | map : List (String × SValue) → SValue
  | null : SValue
  | unit : SValue
  | other : SValue

/-- Decode every element of a list as a string, as the element decoder of
`Vec<String>` does; any non-string element fails the list
interpretation. -/
def strListOf : List SValue → Option (List String)
  | [] => some []
  | .str s :: rest => (strListOf rest).map fun t => s :: t
  | _ :: _ => none

/-- The error serde produces when an encoded value matches neither
variant of the untagged enum.  It mentions only the enum, never the map
key the value sat under. -/
def untaggedErrMsg : String :=
  "data did not match any variant of untagged enum OneOrMany"

/-- Model of decoding one encoded value as the untagged `OneOrMany`
(the `next_entry::<_, OneOrMany>()` value decode): the scalar variant
matches a string, the list variant a list of strings, and every other
shape fails with the untagged-enum error. -/
def decodeOneOrMany : SValue → Except String OneOrMany
  | .str s => .ok (.one s)
  | .list xs =>
    match strListOf xs with
    | some ss => .ok (.many ss)
    | none => .error untaggedErrMsg
  | _ => .error untaggedErrMsg

/-- Normalization applied to a decoded value (src/serde.rs lines 43-48
and src/serde/aws_api_gateway_v2.rs lines 60-63): a scalar is split on
commas, a list is used as-is. -/
def normalizeOM : OneOrMany → List String
  | .one s => rsplit s
  | .many l => l

/-- The entry loop of `QueryMapVisitor::visit_map`: decode each entry's
value as `OneOrMany`, normalize it, and insert it under the key with
`HashMap::insert`; a failing entry aborts the whole decode, propagating
the entry's error unchanged (the `?` operator). -/
def visitGo : List (String × SValue) → Store String → Except String (QueryMap String)
  | [], st => .ok ⟨st⟩
  | (k, v) :: rest, st =>
    match decodeOneOrMany v with
    | .error e => .error e
    | .ok om => visitGo rest (insertAssoc st k (normalizeOM om))

/-- Model of `QueryMapVisitor::visit_map`, whose body is shared verbatim
by the generic adapter (src/serde.rs lines 30-52) and the
aws_api_gateway_v2 adapter (src/serde/aws_api_gateway_v2.rs lines
47-67). -/
def visit_map (entries : List (String × SValue)) : Except String (QueryMap String) :=
  visitGo entries []

theorem strListOf_map_str :
    ∀ ss : List String, strListOf (ss.map SValue.str) = some ss := by
  intro ss
  induction ss with
  | nil => rfl
  | cons s rest ih => simp [strListOf, ih]

/-- C1 fails as stated: decoding the single scalar entry
`"foo" ↦ "bar,baz"` through the generic adapter's `visit_map` does not
produce the singleton `["bar,baz"]` — the scalar is comma-split into
`["bar", "baz"]` (the adapter's own test
`test_deserialize_single_with_comma_separated_values` expects exactly
this). -/
theorem c1_counterexample :
    ((visit_map [("foo", SValue.str "bar,baz")]).map fun m => m.all "foo") =
      Except.ok (some ["bar", "baz"]) ∧
    (some ["bar", "baz"] : Option (List String)) ≠ some ["bar,baz"] := by
  constructor
  · rfl
  · decide

/-- C1 (amended): in the generic structured-map adapter, a scalar value is
comma-split, so a scalar containing no comma decodes to the singleton
list and a list value is used unchanged. -/
theorem c1_scalar_singleton :
    (∀ (k : String) (v : String), ',' ∉ v.data →
      visit_map [(k, SValue.str v)] = .ok ⟨[(k, [v])]⟩) ∧
    (∀ (k : String) (ss : List String),
      visit_map [(k, SValue.list (ss.map SValue.str))] = .ok ⟨[(k, ss)]⟩) := by
  constructor
  · intro k v hv
    simp only [visit_map, visitGo, decodeOneOrMany, normalizeOM]
    rw [rsplit_no_comma v hv]
    rfl
  · intro k ss
    simp only [visit_map, visitGo, decodeOneOrMany, strListOf_map_str ss, normalizeOM]
    rfl

/-- Witness for `c1_scalar_singleton` at the comma-free scalar entry
`"foo" ↦ "bar"`. -/
theorem c1_scalar_singleton_witness :
    visit_map [("foo", SValue.str "bar")] = .ok ⟨[("foo", ["bar"])]⟩ :=
  c1_scalar_singleton.1 "foo" "bar" (by decide)

theorem visitGo_split :
    ∀ (pre rest : List (String × SValue)) (st : Store String)
      (m : QueryMap String),
      visitGo (pre ++ rest) st = .ok m →
      ∃ st1, visitGo pre st = .ok ⟨st1⟩ ∧ visitGo rest st1 = .ok m := by
  intro pre
  induction pre with
  | nil =>
    intro rest st m h
    exact ⟨st, rfl, h⟩
  | cons e pre' ih =>
    intro rest st m h
    obtain ⟨k, v⟩ := e
    simp only [List.cons_append, visitGo] at h ⊢
    cases hd : decodeOneOrMany v with
    | error e' =>
      rw [hd] at h
      exact absurd h (by simp)
    | ok om =>
      rw [hd] at h
      exact ih rest _ m h

theorem visitGo_lookup_of_no_key :
    ∀ (entries : List (String × SValue)) (st : Store String)
      (m : QueryMap String) (k : String),
      (∀ p ∈ entries, p.1 ≠ k) →
      visitGo entries st = .ok m →
      lookupAssoc m.data k = lookupAssoc st k := by
  intro entries
  induction entries with
  | nil =>
    intro st m k _ h
    cases h
    rfl
  | cons e rest ih =>
    intro st m k hk h
    obtain ⟨k', v⟩ := e
    simp only [visitGo] at h
    cases hd : decodeOneOrMany v with
    | error e' =>
      rw [hd] at h
      exact absurd h (by simp)
    | ok om =>
      rw [hd] at h
      have hk' : k' ≠ k := hk (k', v) (List.mem_cons_self _ _)
      rw [ih _ m k (fun p hp => hk p (List.mem_cons_of_mem _ hp)) h]
      exact lookupAssoc_insert_ne st k k' (normalizeOM om) hk'

/-- C5: in `visit_map`, the last entry for a key wins — whenever an entry
`(k, v)` decodes successfully and no later entry carries the key `k`, the
resulting map associates `k` with exactly the normalization of `v`,
whatever earlier entries (including duplicates of `k`) contained. -/
theorem c5_last_write_wins (pre : List (String × SValue)) (k : String)
    (v : SValue) (post : List (String × SValue)) (om : OneOrMany)
    (m : QueryMap String) (hpost : ∀ p ∈ post, p.1 ≠ k)
    (hdec : decodeOneOrMany v = .ok om)
    (hok : visit_map (pre ++ (k, v) :: post) = .ok m) :
    m.all k = some (normalizeOM om) := by
  unfold visit_map at hok
  obtain ⟨st1, _, h2⟩ := visitGo_split pre ((k, v) :: post) [] m hok
  simp only [visitGo, hdec] at h2
  unfold QueryMap.all
  rw [visitGo_lookup_of_no_key post _ m k hpost h2]
  exact lookupAssoc_insert_self st1 k (normalizeOM om)

/-- Witness for `c5_last_write_wins`: in
`[("a", "0"), ("a", "1"), ("b", "2")]` the key `"a"` appears twice and the
decoded map keeps only the last value, `["1"]`. -/
theorem c5_last_write_wins_witness :
    (QueryMap.mk [("a", ["1"]), ("b", ["2"])]).all "a" = some ["1"] :=
  c5_last_write_wins [("a", SValue.str "0")] "a" (SValue.str "1")
    [("b", SValue.str "2")] (OneOrMany.one "1")
    (QueryMap.mk [("a", ["1"]), ("b", ["2"])])
    (by
      intro p hp
      simp only [List.mem_singleton] at hp
      subst hp
      decide)
    rfl rfl

/-- C6 fails as stated: the decode error for a value that matches neither
`OneOrMany` variant is the propagated untagged-enum message, which is
identical for the keys `"foo"` and `"bar"` — the error does not report
the offending key. -/
theorem c6_counterexample :
    visit_map [("foo", SValue.other)] = .error untaggedErrMsg ∧
    visit_map [("bar", SValue.other)] = .error untaggedErrMsg := by
  constructor
  · rfl
  · rfl

/-- C6 (amended): if any entry's value fails to decode as a scalar string
or a list of strings (all earlier entries decoding fine), the whole
decode aborts with that entry's element-decode error, propagated
unchanged and without the key attached, and no map — partial or
otherwise — is returned. -/
theorem c6_error_aborts (pre : List (String × SValue)) (k : String)
    (v : SValue) (post : List (String × SValue)) (e : String)
    (hpre : ∀ p ∈ pre, (decodeOneOrMany p.2).isOk = true)
    (hv : decodeOneOrMany v = .error e) :
    visit_map (pre ++ (k, v) :: post) = .error e := by
  unfold visit_map
  have : ∀ st : Store String, visitGo (pre ++ (k, v) :: post) st = .error e := by
    induction pre with
    | nil =>
      intro st
      simp [visitGo, hv]
    | cons p pre' ih =>
      intro st
      obtain ⟨k', v'⟩ := p
      have hok : (decodeOneOrMany v').isOk = true :=
        hpre (k', v') (List.mem_cons_self _ _)
      simp only [List.cons_append, visitGo]
      cases hd : decodeOneOrMany v' with
      | error e' =>
        rw [hd] at hok
        exact absurd hok (by simp [Except.isOk, Except.toBool])
      | ok om =>
        exact ih (fun p hp => hpre p (List.mem_cons_of_mem _ hp)) _
  exact this []

/-- Witness for `c6_error_aborts`: the single failing entry
`("foo", other)` aborts the decode with the untagged-enum error. -/
theorem c6_error_aborts_witness :
    visit_map [("foo", SValue.other)] = .error untaggedErrMsg :=
  c6_error_aborts [] "foo" SValue.other [] untaggedErrMsg
    (by intro p hp; simp at hp) rfl

/-- The collection step of `serialize_query_string_parameters`
(src/serde/aws_api_gateway_v2.rs lines 103-106): for each pair `(k, _)`
yielded by the iterator, insert `(k, all(k).unwrap().join(","))` into the
`HashMap<String, String>` being collected.  `all(k).unwrap()` panics when
the key is absent, modelled by the `none` result. -/
def collectQSP (m : QueryMap String) :
    List (String × String) → List (String × String) → Option (List (String × String))
  | [], acc => some acc
  | (k, _) :: rest, acc =>
    match m.all k with
    | none => none
    | some vs => collectQSP m rest (insertAssoc acc k (rjoin vs))

/-- Model of `serialize_query_string_parameters`
(src/serde/aws_api_gateway_v2.rs lines 96-113): run the flattening
iterator over the map, build the comma-joined `HashMap<String, String>`,
and emit its entries.  A panic anywhere (the iterator's out-of-bounds
index or the `unwrap`) is the `none` result. -/
def serialize_query_string_parameters (m : QueryMap String) :
    Option (List (String × String)) :=
  match runIter (QueryMap.iter m) with
  | none => none
  | some pairs => collectQSP m pairs []

theorem insertAssoc_not_contains {β : Type} (st : List (String × β))
    (k : String) (v : β) (h : containsKey st k = false) :
    insertAssoc st k v = st ++ [(k, v)] := by
  unfold insertAssoc
  rw [if_neg (by simp [h])]

theorem collectQSP_same_key (m : QueryMap String) (k : String)
    (vs : List String) (hall : m.all k = some vs) :
    ∀ (l : List String) (tail : List (String × String))
      (acc : List (String × String)),
      collectQSP m ((l.map fun v => (k, v)) ++ tail) (insertAssoc acc k (rjoin vs)) =
        collectQSP m tail (insertAssoc acc k (rjoin vs)) := by
  intro l
  induction l with
  | nil => intro tail acc; rfl
  | cons v l' ih =>
    intro tail acc
    simp only [List.map_cons, List.cons_append, collectQSP, hall]
    rw [insertAssoc_insert_same]
    exact ih tail acc

theorem collectQSP_flatten (m : QueryMap String) :
    ∀ (st2 : Store String) (acc : List (String × String)),
      (acc.map Prod.fst ++ st2.map Prod.fst).Nodup →
      (∀ p ∈ st2, m.all p.1 = some p.2) →
      (∀ p ∈ st2, p.2 ≠ []) →
      collectQSP m (flattenStore st2) acc =
        some (acc ++ st2.map fun p => (p.1, rjoin p.2)) := by
  intro st2
  induction st2 with
  | nil =>
    intro acc _ _ _
    simp [flattenStore, collectQSP]
  | cons p rest ih =>
    intro acc hnd hall hne
    obtain ⟨k, vs⟩ := p
    have hvs : m.all k = some vs := hall (k, vs) (List.mem_cons_self _ _)
    have hvne : vs ≠ [] := hne (k, vs) (List.mem_cons_self _ _)
    have hndsplit := List.nodup_append.mp (by simpa using hnd)
    have hkacc : containsKey acc k = false := by
      rw [containsKey_false_iff]
      intro q hq heq
      exact hndsplit.2.2 (List.mem_map_of_mem Prod.fst hq)
        (heq ▸ List.mem_cons_self k (rest.map Prod.fst))
    cases vs with
    | nil => exact absurd rfl hvne
    | cons v0 vs' =>
      simp only [flattenStore, List.map_cons, List.cons_append, collectQSP, hvs]
      rw [show (List.map (fun v => (k, v)) vs').append (flattenStore rest) =
        (vs'.map fun v => (k, v)) ++ flattenStore rest from rfl]
      rw [collectQSP_same_key m k (v0 :: vs') hvs vs' (flattenStore rest) acc]
      rw [insertAssoc_not_contains acc k (rjoin (v0 :: vs')) hkacc]
      rw [ih (acc ++ [(k, rjoin (v0 :: vs'))])
        (by simpa [List.append_assoc] using hnd)
        (fun q hq => hall q (List.mem_cons_of_mem _ hq))
        (fun q hq => hne q (List.mem_cons_of_mem _ hq))]
      simp

theorem lookupAssoc_self_of_uniq {V : Type} :
    ∀ st : Store V, (st.map Prod.fst).Nodup →
      ∀ p ∈ st, lookupAssoc st p.1 = some p.2 := by
  intro st
  induction st with
  | nil => intro _ p hp; simp at hp
  | cons q rest ih =>
    intro hnd p hp
    rw [List.map_cons] at hnd
    have hndc := List.nodup_cons.mp hnd
    rcases List.mem_cons.mp hp with h | h
    · subst h
      simp [lookupAssoc]
    · have hne : q.1 ≠ p.1 := by
        intro heq
        exact hndc.1 (heq ▸ List.mem_map_of_mem Prod.fst h)
      simp only [lookupAssoc, if_neg hne]
      exact ih hndc.2 p h

theorem visitGo_join_entries :
    ∀ (st2 : Store String) (acc : Store String),
      (acc.map Prod.fst ++ st2.map Prod.fst).Nodup →
      (∀ p ∈ st2, p.2 ≠ []) →
      (∀ p ∈ st2, ∀ v ∈ p.2, ',' ∉ v.data) →
      visitGo (st2.map fun p => (p.1, SValue.str (rjoin p.2))) acc =
        .ok ⟨acc ++ st2⟩ := by
  intro st2
  induction st2 with
  | nil =>
    intro acc _ _ _
    simp [visitGo]
  | cons p rest ih =>
    intro acc hnd hne hcf
    obtain ⟨k, vs⟩ := p
    have hndsplit := List.nodup_append.mp (by simpa using hnd)
    have hkacc : containsKey acc k = false := by
      rw [containsKey_false_iff]
      intro q hq heq
      exact hndsplit.2.2 (List.mem_map_of_mem Prod.fst hq)
        (heq ▸ List.mem_cons_self k (rest.map Prod.fst))
    simp only [List.map_cons, visitGo, decodeOneOrMany, normalizeOM]
    rw [rsplit_rjoin vs (hne (k, vs) (List.mem_cons_self _ _))
      (hcf (k, vs) (List.mem_cons_self _ _))]
    rw [insertAssoc_not_contains acc k vs hkacc]
    rw [ih (acc ++ [(k, vs)])
      (by simpa [List.append_assoc] using hnd)
      (fun q hq => hne q (List.mem_cons_of_mem _ hq))
      (fun q hq => hcf q (List.mem_cons_of_mem _ hq))]
    simp

/-- C4 fails as stated: the map `{"k" ↦ []}` has no value containing a
comma, yet re-encoding it already panics — the flattening iterator used
by `serialize_query_string_parameters` indexes `values[0]` of the empty
list — so no decode of the re-encoding can return the original map. -/
theorem c4_counterexample :
    (∀ p ∈ (QueryMap.mk [("k", ([] : List String))]).data,
      ∀ v ∈ p.2, ',' ∉ v.data) ∧
    serialize_query_string_parameters (QueryMap.mk [("k", ([] : List String))]) =
      none := by
  constructor
  · decide
  · rfl

/-- C4 (amended): decoding the scalar `"bar,baz"` for `"foo"` through the
comma-split adapter yields `all("foo") = ["bar","baz"]`; and for every map
with (necessarily unique) keys whose value lists are non-empty and whose
values contain no literal comma, `serialize_query_string_parameters`
joins each key's value list with commas into a single scalar field, and
decoding that encoding restores the original map. -/
theorem c4_round_trip :
    (visit_map [("foo", SValue.str "bar,baz")] =
      .ok ⟨[("foo", ["bar", "baz"])]⟩) ∧
    (∀ m : QueryMap String, uniqKeys m → wfValues m →
      (∀ p ∈ m.data, ∀ v ∈ p.2, ',' ∉ v.data) →
      serialize_query_string_parameters m =
        some (m.data.map fun p => (p.1, rjoin p.2)) ∧
      visit_map ((m.data.map fun p => (p.1, rjoin p.2)).map
        fun q => (q.1, SValue.str q.2)) = .ok m) := by
  constructor
  · rfl
  · intro m hu hwf hcf
    constructor
    · unfold serialize_query_string_parameters
      rw [iter_runs_to_flatten m hwf hu]
      exact collectQSP_flatten m m.data []
        (by simpa using hu)
        (fun p hp => lookupAssoc_self_of_uniq m.data hu p hp)
        (fun p hp => hwf p hp)
    · rw [List.map_map]
      have h := visitGo_join_entries m.data [] (by simpa using hu)
        (fun p hp => hwf p hp) hcf
      simp only [List.nil_append] at h
      exact h

/-- Witness for `c4_round_trip` at the concrete map `{"a" ↦ ["x","y"]}`. -/
theorem c4_round_trip_witness :
    serialize_query_string_parameters (QueryMap.mk [("a", ["x", "y"])]) =
      some ((QueryMap.mk [("a", ["x", "y"])]).data.map fun p => (p.1, rjoin p.2)) ∧
    visit_map (((QueryMap.mk [("a", ["x", "y"])]).data.map
      fun p => (p.1, rjoin p.2)).map fun q => (q.1, SValue.str q.2)) =
      .ok (QueryMap.mk [("a", ["x", "y"])]) :=
  c4_round_trip.2 (QueryMap.mk [("a", ["x", "y"])])
    (by unfold uniqKeys; decide) (by unfold wfValues; decide) (by decide)

/-- Modelled from the spec: the entry parser of the text-query adapter
(the `url_query` module is declared at src/lib.rs line 77 but its source
is not present).  An entry is split at its first `=` into key and value;
an entry with no `=` is malformed. -/
def splitEq : List Char → Option (List Char × List Char)
  | [] => none
  | c :: cs =>
    if c = '=' then some ([], cs)
    else (splitEq cs).map fun p => (c :: p.1, p.2)

/-- Modelled from the spec: the accumulating insert of the text-query
adapter — multiple entries sharing a key accumulate into that key's value
list in appearance order (unlike the structured adapters'
last-write-wins insert). -/
def appendAssoc (st : Store String) (k : String) (v : String) : Store String :=
  if containsKey st k then
    st.map fun p => if p.1 = k then (p.1, p.2 ++ [v]) else p
  else
    st ++ [(k, [v])]

/-- Modelled from the spec: the entry loop of the text-query adapter —
each `&`-separated entry is parsed as `key=value` and accumulated; a
malformed entry aborts the whole parse with an error. -/
def parseGo : List (List Char) → Store String → Except String (QueryMap String)
  | [], st => .ok ⟨st⟩
  | e :: rest, st =>
    match splitEq e with
    | none => .error "invalid query string entry"
    | some (k, v) => parseGo rest (appendAssoc st k.asString v.asString)

/-- Modelled from the spec: the text-query decoding adapter (the missing
`url_query` module's `FromStr` implementation) — split the input on `&`,
parse each entry as `key=value`, and accumulate duplicate keys in
appearance order. -/
def parseQueryString (s : String) : Except String (QueryMap String) :=
  parseGo (splitChars '&' s.data) []

theorem parseGo_error_of_malformed :
    ∀ (entries : List (List Char)) (st : Store String),
      (∃ e ∈ entries, splitEq e = none) → (parseGo entries st).isOk = false := by
  intro entries
  induction entries with
  | nil =>
    intro st h
    obtain ⟨e, he, _⟩ := h
    simp at he
  | cons e rest ih =>
    intro st h
    simp only [parseGo]
    cases hs : splitEq e with
    | none => rfl
    | some kv =>
      obtain ⟨e', he', hnone⟩ := h
      rcases List.mem_cons.mp he' with rfl | hmem
      · rw [hs] at hnone
        exact absurd hnone (by simp)
      · exact ih _ ⟨e', hmem, hnone⟩

/-- C7: parsing the text `"foo=bar&baz=quux&foo=qux"` yields
`all("foo") = ["bar","qux"]` and `all("baz") = ["quux"]` — duplicate keys
accumulate in appearance order — and any input containing an entry with
no `=` fails the whole parse. -/
theorem c7_text_decode :
    ((parseQueryString "foo=bar&baz=quux&foo=qux").map
      fun m => (m.all "foo", m.all "baz")) =
      .ok (some ["bar", "qux"], some ["quux"]) ∧
    (∀ s : String, (∃ e ∈ splitChars '&' s.data, splitEq e = none) →
      (parseQueryString s).isOk = false) := by
  constructor
  · rfl
  · intro s h
    exact parseGo_error_of_malformed _ [] h

/-- Witness for `c7_text_decode` at the malformed input
`"foo=bar&oops"`, whose second entry has no `=`. -/
theorem c7_text_decode_witness :
    (parseQueryString "foo=bar&oops").isOk = false :=
  c7_text_decode.2 "foo=bar&oops" (by decide)

/-- Model of the `deserialize` entry points (src/serde.rs lines 16-57 and
src/serde/aws_api_gateway_v2.rs lines 72-77): in the serde data model,
`deserializer.deserialize_map(visitor)` runs `visit_map` on a map value
and reports a type error on anything else. -/
def deserialize (v : SValue) : Except String (QueryMap String) :=
  match v with
  | .map es => visit_map es
  | _ => .error "invalid type, expected a QueryMap"

/-- Model of `deserialize_optional` (src/serde/aws_api_gateway_v2.rs
lines 80-85): `Option::deserialize` — a null becomes `None`, and any
other value decodes through `QueryMap`'s deserializer, wrapped in
`Some`. -/
def deserialize_optional (v : SValue) : Except String (Option (QueryMap String)) :=
  match v with
  | .null => .ok none
  | v => (deserialize v).map some

/-- Model of `deserialize_empty` (src/serde/aws_api_gateway_v2.rs lines
88-93): `deserialize_option` routes a null to `visit_none` and a unit to
`visit_unit` — both return `QueryMap::default()` (lines 26-38) — and any
other value to `visit_some`, which decodes a map via `visit_map`
(lines 40-45). -/
def deserialize_empty (v : SValue) : Except String (QueryMap String) :=
  match v with
  | .null => .ok QueryMap.mkDefault
  | .unit => .ok QueryMap.mkDefault
  | .map es => visit_map es
  | _ => .error "invalid type, expected a QueryMap"

/-- C10: decoding an explicit null (or unit) through `deserialize_empty`
succeeds with the default empty `QueryMap`, and decoding a null through
`deserialize_optional` succeeds with `None` rather than an error. -/
theorem c10_null_handling :
    deserialize_empty SValue.null = .ok QueryMap.mkDefault ∧
    deserialize_empty SValue.unit = .ok QueryMap.mkDefault ∧
    deserialize_optional SValue.null = .ok none :=
  ⟨rfl, rfl, rfl⟩

end QueryMapRs
